import Mathlib

/-!
# Verification of the KiCad default-fields-order plugin core

Shallow embedding of the codec and editing model of
`V_ChangeDefaultFieldsOrder.py`: the S-expression field-list parser
(`FIELD_RE` + `parse_field_names_sexpr`), the serializer
(`FieldItem.with_suffix_inside` + `build_field_names_sexpr`), the escaping
helpers (`_escape` / `_unescape`) and the list-editing operations of
`OrderDialog` (`on_add`, `_move_up`, `_move_down`, `on_import`).

Strings are modelled as `List Char`.  Python's regex scan
(`FIELD_RE.finditer`) is deterministic on this particular pattern (every
quantifier's extent is forced, see the comments at `matchFieldAt`), so it is
embedded as a total recursive scanner.
-/

set_option maxHeartbeats 1000000

namespace KiFields

/-- Whitespace class used both by the regex `\s` and by Python's `str.strip`
over the characters appearing in KiCad configuration values. -/
def isWs (c : Char) : Bool :=
  c == ' ' || c == '\t' || c == '\n' || c == '\r' || c == '\x0b' || c == '\x0c'

/-- Drop the longest whitespace prefix (the action of a greedy `\s*`). -/
def dropWs : List Char → List Char
  | [] => []
  | c :: rest => if isWs c then dropWs rest else c :: rest

/-- Python `str.strip` of trailing whitespace. -/
def stripEnd (s : List Char) : List Char :=
  (dropWs s.reverse).reverse

/-- Python `str.strip()`: remove leading and trailing whitespace. -/
def strip (s : List Char) : List Char :=
  dropWs (stripEnd s)

/-- Python `str.replace(old, new)` for a one-character `old`:
left-to-right, non-overlapping. -/
def replace1 (a : Char) (new : List Char) : List Char → List Char
  | [] => []
  | x :: rest =>
    if x = a then new ++ replace1 a new rest else x :: replace1 a new rest

/-- Python `str.replace(old, new)` for a two-character `old`:
left-to-right, non-overlapping. -/
def replace2 (a b : Char) (new : List Char) : List Char → List Char
  | [] => []
  | [x] => [x]
  | x :: y :: rest =>
    if x = a ∧ y = b then new ++ replace2 a b new rest
    else x :: replace2 a b new (y :: rest)

/-- `_unescape` from the source: `s.replace('\"', '"').replace('\\\\', '\\')`
(first turn backslash-quote into quote, then doubled backslash into one). -/
def _unescape (s : List Char) : List Char :=
  replace2 '\\' '\\' [ '\\' ] (replace2 '\\' '"' [ '"' ] s)

/-- `_escape` from the source: `s.replace('\\', '\\\\').replace('"', '\"')`
(first double every backslash, then escape every quote). -/
def _escape (s : List Char) : List Char :=
  replace1 '"' [ '\\', '"' ] (replace1 '\\' [ '\\', '\\' ] s)

/-- A single `(field ...)` entry: the field name (unescaped) and the raw
captured tail (`suffix` in the source). -/
structure FieldItem where
  name : List Char
  suffix : List Char
deriving DecidableEq, Repr

/-- The literal `(field` that opens a record in `FIELD_RE`. -/
def litField : List Char := [ '(', 'f', 'i', 'e', 'l', 'd' ]

/-- The literal `(name` inside a record in `FIELD_RE`. -/
def litName : List Char := [ '(', 'n', 'a', 'm', 'e' ]

/-- The outer opening tag `(templatefields` of `build_field_names_sexpr`. -/
def litTF : List Char :=
  [ '(', 't', 'e', 'm', 'p', 'l', 'a', 't', 'e', 'f', 'i', 'e', 'l', 'd', 's' ]

/-- `FieldItem.with_suffix_inside` from the source:
`f'(field (name "{_escape(self.name)}"){suf})'` where `suf` is the stripped
suffix preceded by exactly one space when non-empty. -/
def with_suffix_inside (it : FieldItem) : List Char :=
  let suf := strip it.suffix
  litField ++ [ ' ' ] ++ litName ++ [ ' ', '"' ] ++ _escape it.name
    ++ [ '"', ')' ] ++ (if suf = [] then [] else ' ' :: suf) ++ [ ')' ]

/-- `build_field_names_sexpr` from the source:
`"(templatefields" + "".join(it.with_suffix_inside() for it in items) + ")"`. -/
def build_field_names_sexpr (items : List FieldItem) : List Char :=
  litTF ++ (items.map with_suffix_inside).flatten ++ [ ')' ]

/-- Match an exact literal prefix and return the remainder. -/
def dropLit : List Char → List Char → Option (List Char)
  | [], s => some s
  | _ :: _, [] => none
  | c :: l, x :: s => if c = x then dropLit l s else none

/-- `\s+` of the regex: at least one whitespace character, taken greedily.
Backtracking to a shorter extent can never help on `FIELD_RE`, because what
follows (`(name`, `"`) never starts with whitespace. -/
def ws1 : List Char → Option (List Char)
  | [] => none
  | c :: rest => if isWs c then some (dropWs rest) else none

/-- Group 1 of `FIELD_RE` together with its closing quote:
`((?:[^"\\]|\\.)*)"`.  The scan is forced: a backslash always consumes two
characters (hence the `esc` state for the character right after one), any
other non-quote character consumes one, and the group can only end at an
unescaped quote.  The scanned group is returned together with the remainder
after the closing quote. -/
def scanNameAux : Bool → List Char → Option (List Char × List Char)
  | _, [] => none
  | true, d :: rest => (scanNameAux false rest).map (fun p => (d :: p.1, p.2))
  | false, c :: rest =>
    if c = '"' then some ([], rest)
    else if c = '\\' then
      (scanNameAux true rest).map (fun p => (c :: p.1, p.2))
    else (scanNameAux false rest).map (fun p => (c :: p.1, p.2))

/-- Group 1 of `FIELD_RE` with its closing quote, started outside an escape. -/
def scanName (s : List Char) : Option (List Char × List Char) :=
  scanNameAux false s

/-- Group 2 of `FIELD_RE` together with its closing parenthesis:
`([^\)]*)\)`.  Greedy and forced: the group extends to the first `)`. -/
def scanTail : List Char → Option (List Char × List Char)
  | [] => none
  | c :: rest =>
    if c = ')' then some ([], rest)
    else (scanTail rest).map (fun p => (c :: p.1, p.2))

/-- One attempted match of
`FIELD_RE = \(field\s+\(name\s+"((?:[^"\\]|\\.)*)"\)\s*([^\)]*)\)`
at the head of the input.  Every quantifier of this pattern has a forced
extent (no alternative extent can ever lead to a match the greedy one
misses), so the backtracking engine is faithfully modelled by this
deterministic scan.  Returns groups 1 and 2 and the text after the match. -/
def matchFieldAt (s : List Char) : Option (List Char × List Char × List Char) :=
  match dropLit litField s with
  | none => none
  | some s1 =>
    match ws1 s1 with
    | none => none
    | some s2 =>
      match dropLit litName s2 with
      | none => none
      | some s3 =>
        match ws1 s3 with
        | none => none
        | some s4 =>
          match dropLit [ '"' ] s4 with
          | none => none
          | some s5 =>
            match scanName s5 with
            | none => none
            | some (g1, s6) =>
              match dropLit [ ')' ] s6 with
              | none => none
              | some s7 =>
                match scanTail (dropWs s7) with
                | none => none
                | some (g2, s8) => some (g1, g2, s8)

/-- `FIELD_RE.finditer`, fuelled: try a match at every position, emit each
match and continue right after it.  The fuel only needs to dominate the
input length. -/
def findAllF : Nat → List Char → List FieldItem
  | 0, _ => []
  | _ + 1, [] => []
  | fuel + 1, c :: rest =>
    match matchFieldAt (c :: rest) with
    | some (g1, g2, s2) => ⟨ _unescape g1, g2 ⟩ :: findAllF fuel s2
    | none => findAllF fuel rest

/-- `parse_field_names_sexpr` from the source: scan the whole text with
`FIELD_RE`, unescape each captured name, keep each captured tail raw. -/
def parse_field_names_sexpr (s : List Char) : List FieldItem :=
  findAllF s.length s

/-- `OrderDialog.on_add` core: strip the entered text; append a record with
empty suffix only when the stripped name is non-empty and not already
present (`if name and all(it.name != name for it in self.items)`). -/
def on_add (raw : List Char) (items : List FieldItem) : List FieldItem :=
  let name := strip raw
  if name ≠ [] ∧ items.all (fun it => it.name != name) then
    items ++ [⟨ name, [] ⟩]
  else items

/-- Python list indexing: a non-negative index must be below the length, a
negative index is taken from the end, anything else raises `IndexError`
(modelled as `none`). -/
def pyIdx (n : Nat) (i : Int) : Option Nat :=
  if 0 ≤ i ∧ i < (n : Int) then some i.toNat
  else if -(n : Int) ≤ i ∧ i < 0 then some (i + (n : Int)).toNat
  else none

/-- Python `items[i]` read. -/
def pyGet (items : List FieldItem) (i : Int) : Option FieldItem :=
  (pyIdx items.length i).bind (fun k => items.get? k)

/-- Python `items[i] = v` write. -/
def pySet (items : List FieldItem) (i : Int) (v : FieldItem) :
    Option (List FieldItem) :=
  (pyIdx items.length i).map (fun k => items.set k v)

/-- `OrderDialog._move_up`: no-op when the selection `i` is `wx.NOT_FOUND`
(-1) or 0; otherwise the tuple assignment
`items[i-1], items[i] = items[i], items[i-1]` (right side read first, then
the two writes). -/
def _move_up (i : Int) (items : List FieldItem) : Option (List FieldItem) :=
  if i = -1 ∨ i = 0 then some items
  else do
    let a ← pyGet items i
    let b ← pyGet items (i - 1)
    let l1 ← pySet items (i - 1) a
    pySet l1 i b

/-- `OrderDialog._move_down`: no-op when the selection `i` is `wx.NOT_FOUND`
(-1) or at least `len(items) - 1`; otherwise the tuple assignment
`items[i+1], items[i] = items[i], items[i+1]`. -/
def _move_down (i : Int) (items : List FieldItem) : Option (List FieldItem) :=
  if i = -1 ∨ (items.length : Int) - 1 ≤ i then some items
  else do
    let a ← pyGet items i
    let b ← pyGet items (i + 1)
    let l1 ← pySet items (i + 1) a
    pySet l1 i b

/-- The dictionary `{it.name: it.suffix for it in self.items}` of
`OrderDialog.on_import`, then `.get(n, "")`: for a duplicated name the later
entry overwrites the earlier one, so the lookup finds the last item with the
given name, and an absent name yields the empty string. -/
def suffixGet (items : List FieldItem) (n : List Char) : List Char :=
  match items.reverse.find? (fun it => it.name == n) with
  | some it => it.suffix
  | none => []

/-- The first loop of `OrderDialog.on_import`: walk the imported `names`,
skipping names already `seen`, and emit one fresh item per new name with the
suffix looked up in the dictionary.  Returns the built prefix and the final
`seen` set (modelled as the insertion-ordered list of its elements; every
imported name is a string here, so the `isinstance(n, str)` guard of the
source is vacuous). -/
def goImport (items : List FieldItem) :
    List (List Char) → List (List Char) → List FieldItem × List (List Char)
  | [], seen => ([], seen)
  | n :: ns, seen =>
    if n ∈ seen then goImport items ns seen
    else
      let r := goImport items ns (seen ++ [n])
      (⟨ n, suffixGet items n ⟩ :: r.1, r.2)

/-- `OrderDialog.on_import` core (the reorder-by-names operation): build the
new front from the imported names, then append every current item whose name
was not seen, in original order. -/
def on_import (names : List (List Char)) (items : List FieldItem) :
    List FieldItem :=
  let r := goImport items names []
  r.1 ++ items.filter (fun it => !(r.2.contains it.name))

/-- First-occurrence deduplication of a name list, relative to an initial
set of already-seen names.  Spec-side helper for the reorder claim. -/
def dedupFrom : List (List Char) → List (List Char) → List (List Char)
  | _, [] => []
  | seen, n :: ns =>
    if n ∈ seen then dedupFrom seen ns
    else n :: dedupFrom (seen ++ [n]) ns

/-- Modelled from the spec: the tail attached to `n` by `reorderByNames` —
"for each name present in the current sequence, its existing tail is
preserved", and an absent name "gets an empty tail". -/
def tailOf (items : List FieldItem) (n : List Char) : List Char :=
  match items.find? (fun it => it.name == n) with
  | some it => it.suffix
  | none => []

/-- Modelled from the spec: `reorderByNames` — one record per distinct
imported name in list order carrying its existing (or empty) tail, followed
by the current records whose name is not in the list, in original order. -/
def reorder_spec (names : List (List Char)) (items : List FieldItem) :
    List FieldItem :=
  (dedupFrom [] names).map (fun n => ⟨ n, tailOf items n ⟩)
    ++ items.filter (fun it => !((dedupFrom [] names).contains it.name))

/-- Modelled from the spec: the record text of `serialize` — "opening record
delimiter, name sub-field with the escaped, double-quoted name, then — if
tail trimmed of surrounding whitespace is non-empty — exactly one space
followed by the trimmed tail, then the closing record delimiter". -/
def record_text_spec (it : FieldItem) : List Char :=
  litField ++ [ ' ' ] ++ litName ++ [ ' ', '"' ] ++ _escape it.name
    ++ [ '"', ')' ]
    ++ (if strip it.suffix ≠ [] then ' ' :: strip it.suffix else [])
    ++ [ ')' ]

/-- Modelled from the spec: `serialize` — "concatenate all records' text
between a fixed outer opening delimiter/tag and a fixed closing delimiter;
no separators between consecutive records". -/
def serialize_spec (items : List FieldItem) : List Char :=
  litTF ++ (items.map record_text_spec).flatten ++ [ ')' ]

/-- Adjacent swap of positions `k` and `k + 1`, used to state what the move
operations do on valid interior selections. -/
def swapAdj (items : List FieldItem) (k : Nat) : List FieldItem :=
  match items.get? k, items.get? (k + 1) with
  | some a, some b => (items.set k b).set (k + 1) a
  | _, _ => items

/-- Backslash-doubling only: the intermediate state of `_unescape` after its
quote pass has run over escaped text. -/
def escDouble : List Char → List Char
  | [] => []
  | c :: s => (if c = '\\' then [ '\\', '\\' ] else [c]) ++ escDouble s

/-! ## Escaping round-trip -/

theorem escape_cons (c : Char) (s : List Char) :
    _escape (c :: s) =
      (if c = '\\' then [ '\\', '\\' ]
        else if c = '"' then [ '\\', '"' ] else [c]) ++ _escape s := by
  by_cases h1 : c = '\\'
  · subst h1
    simp [_escape, replace1]
  · by_cases h2 : c = '"'
    · subst h2
      simp [_escape, replace1]
    · simp [_escape, replace1, h1, h2]

theorem escape_eq_nil (s : List Char) : _escape s = [] ↔ s = [] := by
  cases s with
  | nil => simp [_escape, replace1]
  | cons c s =>
    rw [escape_cons]
    constructor
    · intro h
      exfalso
      split_ifs at h <;> simp at h
    · intro h
      exact absurd h (by simp)

theorem escape_head_ne_quote (s : List Char) (c : Char) (t : List Char)
    (h : _escape s = c :: t) : c ≠ '"' := by
  cases s with
  | nil => simp [_escape, replace1] at h
  | cons c' s' =>
    rw [escape_cons] at h
    split_ifs at h with h1 h2 <;>
      simp only [List.cons_append, List.nil_append, List.cons.injEq] at h
    · obtain ⟨rfl, -⟩ := h
      decide
    · obtain ⟨rfl, -⟩ := h
      decide
    · obtain ⟨rfl, -⟩ := h
      exact h2

theorem replace2_skip_pair (a b : Char) (new : List Char) (x y : Char)
    (hy : ¬(x = a ∧ y = b)) (t : List Char) :
    replace2 a b new (x :: y :: t) = x :: replace2 a b new (y :: t) := by
  simp [replace2, hy]

theorem replace2_skip_head (a b : Char) (new : List Char) (x : Char)
    (hx : x ≠ a) (u : List Char) :
    replace2 a b new (x :: u) = x :: replace2 a b new u := by
  cases u with
  | nil => simp [replace2]
  | cons e t => exact replace2_skip_pair a b new x e (fun h => hx h.1) t

theorem replace2_skip_bs_escape (s : List Char) :
    replace2 '\\' '"' [ '"' ] ('\\' :: _escape s)
      = '\\' :: replace2 '\\' '"' [ '"' ] (_escape s) := by
  cases he : _escape s with
  | nil => simp [replace2]
  | cons e t =>
    have he2 : e ≠ '"' := escape_head_ne_quote s e t he
    exact replace2_skip_pair '\\' '"' [ '"' ] '\\' e (by simp [he2]) t

theorem escape_cons_bs (s : List Char) :
    _escape ('\\' :: s) = '\\' :: '\\' :: _escape s := by
  rw [escape_cons]
  simp

theorem escape_cons_quote (s : List Char) :
    _escape ('"' :: s) = '\\' :: '"' :: _escape s := by
  rw [escape_cons]
  simp

theorem escape_cons_other (c : Char) (s : List Char) (h1 : c ≠ '\\')
    (h2 : c ≠ '"') : _escape (c :: s) = c :: _escape s := by
  rw [escape_cons]
  simp [h1, h2]

theorem escDouble_cons_bs (s : List Char) :
    escDouble ('\\' :: s) = '\\' :: '\\' :: escDouble s := by
  simp [escDouble]

theorem escDouble_cons_other (c : Char) (s : List Char) (h1 : c ≠ '\\') :
    escDouble (c :: s) = c :: escDouble s := by
  simp [escDouble, h1]

theorem unescape_quote_pass (s : List Char) :
    replace2 '\\' '"' [ '"' ] (_escape s) = escDouble s := by
  induction s with
  | nil => simp [_escape, replace1, replace2, escDouble]
  | cons c s ih =>
    by_cases h1 : c = '\\'
    · subst h1
      rw [escape_cons_bs, escDouble_cons_bs,
        replace2_skip_pair '\\' '"' [ '"' ] '\\' '\\' (by simp) (_escape s),
        replace2_skip_bs_escape s, ih]
    · by_cases h2 : c = '"'
      · subst h2
        rw [escape_cons_quote, escDouble_cons_other _ _ h1]
        simp [replace2, ih]
      · rw [escape_cons_other c s h1 h2, escDouble_cons_other c s h1,
          replace2_skip_head '\\' '"' [ '"' ] c h1 (_escape s), ih]

theorem unescape_bs_pass (s : List Char) :
    replace2 '\\' '\\' [ '\\' ] (escDouble s) = s := by
  induction s with
  | nil => simp [escDouble, replace2]
  | cons c s ih =>
    by_cases h1 : c = '\\'
    · subst h1
      rw [escDouble_cons_bs]
      simp [replace2, ih]
    · rw [escDouble_cons_other c s h1,
        replace2_skip_head '\\' '\\' [ '\\' ] c h1 (escDouble s), ih]

theorem unescape_escape (s : List Char) : _unescape (_escape s) = s := by
  rw [_unescape, unescape_quote_pass, unescape_bs_pass]

/-! ## Whitespace and strip lemmas -/

theorem dropWs_length (s : List Char) : (dropWs s).length ≤ s.length := by
  induction s with
  | nil => simp [dropWs]
  | cons c rest ih =>
    simp only [dropWs]
    split_ifs
    · exact le_trans ih (Nat.le_succ _)
    · simp

theorem dropWs_head_not_ws (s : List Char) (c : Char) (t : List Char)
    (h : dropWs s = c :: t) : isWs c = false := by
  induction s with
  | nil => simp [dropWs] at h
  | cons d rest ih =>
    simp only [dropWs] at h
    split_ifs at h with hd
    · exact ih h
    · injection h with h1 h2
      subst h1
      simp at hd
      exact hd

theorem dropWs_not_ws (c : Char) (t : List Char) (h : isWs c = false) :
    dropWs (c :: t) = c :: t := by
  simp [dropWs, h]

theorem dropWs_dropWs_append (y r : List Char) (hy : dropWs y ≠ []) :
    dropWs (dropWs y ++ r) = dropWs y ++ r := by
  cases hd : dropWs y with
  | nil => exact absurd hd hy
  | cons c t =>
    rw [List.cons_append]
    exact dropWs_not_ws c (t ++ r) (dropWs_head_not_ws y c t hd)

theorem dropWs_idem (y : List Char) : dropWs (dropWs y) = dropWs y := by
  cases hd : dropWs y with
  | nil => simp [dropWs]
  | cons c t => exact dropWs_not_ws c t (dropWs_head_not_ws y c t hd)

theorem dropWs_mem (c : Char) (y : List Char) (h : c ∈ dropWs y) : c ∈ y := by
  induction y with
  | nil => exact h
  | cons d rest ih =>
    simp only [dropWs] at h
    split_ifs at h with hd
    · exact List.mem_cons_of_mem d (ih h)
    · exact h

theorem strip_mem (c : Char) (s : List Char) (h : c ∈ strip s) : c ∈ s := by
  unfold strip stripEnd at h
  have h1 := dropWs_mem c _ h
  rw [List.mem_reverse] at h1
  have h2 := dropWs_mem c _ h1
  rwa [List.mem_reverse] at h2

theorem dropWs_strip_append (x r : List Char) (h : strip x ≠ []) :
    dropWs (strip x ++ r) = strip x ++ r :=
  dropWs_dropWs_append (stripEnd x) r h

theorem dropWs_getLast (y : List Char) (h : dropWs y ≠ []) :
    (dropWs y).getLast? = y.getLast? := by
  induction y with
  | nil => simp [dropWs] at h
  | cons c t ih =>
    by_cases hc : isWs c = true
    · have hd : dropWs (c :: t) = dropWs t := by simp [dropWs, hc]
      rw [hd] at h ⊢
      have ht : t ≠ [] := by
        intro he
        rw [he] at h
        simp [dropWs] at h
      rw [ih h]
      cases t with
      | nil => exact absurd rfl ht
      | cons a u => rw [List.getLast?_cons_cons]
    · have hc' : isWs c = false := by
        simp at hc
        exact hc
      rw [dropWs_not_ws c t hc']

theorem strip_getLast_not_ws (x : List Char) (c : Char)
    (h : (strip x).getLast? = some c) : isWs c = false := by
  have hne : strip x ≠ [] := by
    intro he
    rw [he] at h
    simp at h
  have h1 : (stripEnd x).getLast? = some c := by
    rw [← dropWs_getLast (stripEnd x) hne]
    exact h
  have h2 : (dropWs x.reverse).head? = some c := by
    rw [← List.getLast?_reverse]
    exact h1
  obtain ⟨t, ht⟩ : ∃ t, dropWs x.reverse = c :: t := by
    cases hd : dropWs x.reverse with
    | nil => rw [hd] at h2; simp at h2
    | cons a u =>
      rw [hd] at h2
      injection h2 with h3
      exact ⟨u, by rw [h3]⟩
  exact dropWs_head_not_ws x.reverse c t ht

theorem stripEnd_strip (x : List Char) : stripEnd (strip x) = strip x := by
  unfold stripEnd
  cases hr : (strip x).reverse with
  | nil => simp [dropWs, List.reverse_eq_nil_iff.mp hr]
  | cons c t =>
    have hc : (strip x).getLast? = some c := by
      rw [← List.head?_reverse, hr]
      rfl
    rw [dropWs_not_ws c t (strip_getLast_not_ws x c hc), ← hr,
      List.reverse_reverse]

theorem dropWs_strip (x : List Char) : dropWs (strip x) = strip x :=
  dropWs_idem (stripEnd x)

theorem strip_idem (x : List Char) : strip (strip x) = strip x := by
  show dropWs (stripEnd (strip x)) = strip x
  rw [stripEnd_strip]
  exact dropWs_strip x

/-! ## Scanner lemmas -/

theorem dropLit_append (l s : List Char) : dropLit l (l ++ s) = some s := by
  induction l with
  | nil => rfl
  | cons c t ih => simp [dropLit, ih]

theorem dropLit_length (l : List Char) :
    ∀ s r, dropLit l s = some r → r.length ≤ s.length := by
  induction l with
  | nil =>
    intro s r h
    simp only [dropLit, Option.some.injEq] at h
    subst h
    exact le_refl _
  | cons c t ih =>
    intro s r h
    cases s with
    | nil => simp [dropLit] at h
    | cons x s' =>
      simp only [dropLit] at h
      split_ifs at h with hc
      exact le_trans (ih s' r h) (Nat.le_succ _)

theorem ws1_length (s r : List Char) (h : ws1 s = some r) :
    r.length < s.length := by
  cases s with
  | nil => simp [ws1] at h
  | cons c rest =>
    simp only [ws1] at h
    split_ifs at h with hc
    injection h with h1
    subst h1
    exact Nat.lt_succ_of_le (dropWs_length rest)

theorem scanTail_length (s : List Char) :
    ∀ g r, scanTail s = some (g, r) → r.length < s.length := by
  induction s with
  | nil => intro g r h; simp [scanTail] at h
  | cons c rest ih =>
    intro g r h
    simp only [scanTail] at h
    split_ifs at h with hc
    · injection h with h1
      injection h1 with h2 h3
      subst h3
      exact Nat.lt_succ_self _
    · cases hm : scanTail rest with
      | none => rw [hm] at h; simp at h
      | some p =>
        rw [hm] at h
        simp only [Option.map_some', Option.some.injEq] at h
        injection h with h2 h3
        subst h3
        exact Nat.lt_succ_of_lt (ih p.1 p.2 (by rw [hm]))

theorem scanTail_not_rparen (s : List Char) :
    ∀ g r, scanTail s = some (g, r) → ')' ∉ g := by
  induction s with
  | nil => intro g r h; simp [scanTail] at h
  | cons c rest ih =>
    intro g r h
    simp only [scanTail] at h
    split_ifs at h with hc
    · injection h with h1
      injection h1 with h2 h3
      subst h2
      simp
    · cases hm : scanTail rest with
      | none => rw [hm] at h; simp at h
      | some p =>
        rw [hm] at h
        simp only [Option.map_some', Option.some.injEq] at h
        injection h with h2 h3
        subst h2
        intro hmem
        rcases List.mem_cons.mp hmem with h4 | h4
        · exact hc h4.symm
        · exact ih p.1 p.2 (by rw [hm]) h4

theorem scanNameAux_length (s : List Char) :
    ∀ (b : Bool) g r, scanNameAux b s = some (g, r) → r.length < s.length := by
  induction s with
  | nil => intro b g r h; cases b <;> simp [scanNameAux] at h
  | cons c rest ih =>
    intro b g r h
    cases b with
    | true =>
      simp only [scanNameAux] at h
      cases hm : scanNameAux false rest with
      | none => rw [hm] at h; simp at h
      | some p =>
        rw [hm] at h
        simp only [Option.map_some', Option.some.injEq] at h
        injection h with h2 h3
        subst h3
        exact Nat.lt_succ_of_lt (ih false p.1 p.2 (by rw [hm]))
    | false =>
      simp only [scanNameAux] at h
      split_ifs at h with h1 h2
      · injection h with hp
        injection hp with hg hr
        subst hr
        exact Nat.lt_succ_self _
      · cases hm : scanNameAux true rest with
        | none => rw [hm] at h; simp at h
        | some p =>
          rw [hm] at h
          simp only [Option.map_some', Option.some.injEq] at h
          injection h with hg hr
          subst hr
          exact Nat.lt_succ_of_lt (ih true p.1 p.2 (by rw [hm]))
      · cases hm : scanNameAux false rest with
        | none => rw [hm] at h; simp at h
        | some p =>
          rw [hm] at h
          simp only [Option.map_some', Option.some.injEq] at h
          injection h with hg hr
          subst hr
          exact Nat.lt_succ_of_lt (ih false p.1 p.2 (by rw [hm]))

theorem scanName_length (s g r : List Char) (h : scanName s = some (g, r)) :
    r.length < s.length :=
  scanNameAux_length s false g r h

theorem scanName_escape (n r : List Char) :
    scanName (_escape n ++ '"' :: r) = some (_escape n, r) := by
  unfold scanName
  induction n with
  | nil => simp [_escape, replace1, scanNameAux]
  | cons c n' ih =>
    by_cases h1 : c = '\\'
    · subst h1
      rw [escape_cons_bs]
      simp [scanNameAux, ih]
    · by_cases h2 : c = '"'
      · subst h2
        rw [escape_cons_quote]
        simp [scanNameAux, ih]
      · rw [escape_cons_other c n' h1 h2]
        simp [scanNameAux, ih, h1, h2]

theorem scanTail_append (g X : List Char) (hg : ')' ∉ g) :
    scanTail (g ++ ')' :: X) = some (g, X) := by
  induction g with
  | nil => simp [scanTail]
  | cons c t ih =>
    have hc : ¬(c = ')') := fun h => hg (by simp [h])
    have ht : ')' ∉ t := fun h => hg (List.mem_cons_of_mem c h)
    simp only [List.cons_append, scanTail, if_neg hc, List.append_eq]
    rw [ih ht]
    rfl

/-! ## Match-step lemmas -/

theorem matchFieldAt_some_decomp (s g1 g2 r : List Char)
    (h : matchFieldAt s = some (g1, g2, r)) :
    ∃ s1 s2 s3 s4 s5 s6 s7,
      dropLit litField s = some s1 ∧ ws1 s1 = some s2 ∧
      dropLit litName s2 = some s3 ∧ ws1 s3 = some s4 ∧
      dropLit [ '"' ] s4 = some s5 ∧ scanName s5 = some (g1, s6) ∧
      dropLit [ ')' ] s6 = some s7 ∧ scanTail (dropWs s7) = some (g2, r) := by
  cases h1 : dropLit litField s with
  | none => simp [matchFieldAt, h1] at h
  | some s1 =>
    cases h2 : ws1 s1 with
    | none => simp [matchFieldAt, h1, h2] at h
    | some s2 =>
      cases h3 : dropLit litName s2 with
      | none => simp [matchFieldAt, h1, h2, h3] at h
      | some s3 =>
        cases h4 : ws1 s3 with
        | none => simp [matchFieldAt, h1, h2, h3, h4] at h
        | some s4 =>
          cases h5 : dropLit [ '"' ] s4 with
          | none => simp [matchFieldAt, h1, h2, h3, h4, h5] at h
          | some s5 =>
            cases h6 : scanName s5 with
            | none => simp [matchFieldAt, h1, h2, h3, h4, h5, h6] at h
            | some p6 =>
              obtain ⟨g1x, s6⟩ := p6
              cases h7 : dropLit [ ')' ] s6 with
              | none => simp [matchFieldAt, h1, h2, h3, h4, h5, h6, h7] at h
              | some s7 =>
                cases h8 : scanTail (dropWs s7) with
                | none =>
                  simp [matchFieldAt, h1, h2, h3, h4, h5, h6, h7, h8] at h
                | some p8 =>
                  obtain ⟨g2x, s8⟩ := p8
                  simp only [matchFieldAt, h1, h2, h3, h4, h5, h6, h7, h8,
                    Option.some.injEq, Prod.mk.injEq] at h
                  obtain ⟨hg1, hg2, hr⟩ := h
                  subst hg1
                  subst hg2
                  subst hr
                  refine ⟨s1, s2, s3, s4, s5, s6, s7,
                    ?_, ?_, ?_, ?_, ?_, ?_, ?_, ?_⟩ <;>
                    first
                    | rfl
                    | assumption

theorem matchFieldAt_some_length (s g1 g2 r : List Char)
    (h : matchFieldAt s = some (g1, g2, r)) : r.length < s.length := by
  obtain ⟨s1, s2, s3, s4, s5, s6, s7, h1, h2, h3, h4, h5, h6, h7, h8⟩ :=
    matchFieldAt_some_decomp s g1 g2 r h
  have l1 := dropLit_length litField s s1 h1
  have l2 := ws1_length s1 s2 h2
  have l3 := dropLit_length litName s2 s3 h3
  have l4 := ws1_length s3 s4 h4
  have l5 := dropLit_length [ '"' ] s4 s5 h5
  have l6 := scanName_length s5 g1 s6 h6
  have l7 := dropLit_length [ ')' ] s6 s7 h7
  have l8 := scanTail_length (dropWs s7) g2 r h8
  have l9 := dropWs_length s7
  omega

theorem matchFieldAt_tail_not_rparen (s g1 g2 r : List Char)
    (h : matchFieldAt s = some (g1, g2, r)) : ')' ∉ g2 := by
  obtain ⟨s1, s2, s3, s4, s5, s6, s7, h1, h2, h3, h4, h5, h6, h7, h8⟩ :=
    matchFieldAt_some_decomp s g1 g2 r h
  exact scanTail_not_rparen (dropWs s7) g2 r h8

theorem matchFieldAt_parts (nm tl X : List Char) (htl : ')' ∉ tl)
    (hdw : dropWs ((if tl = [] then [] else ' ' :: tl) ++ ')' :: X)
      = tl ++ ')' :: X) :
    matchFieldAt ('(' :: 'f' :: 'i' :: 'e' :: 'l' :: 'd' :: ' ' :: '(' :: 'n'
        :: 'a' :: 'm' :: 'e' :: ' ' :: '"' :: (_escape nm ++ '"' :: ')' ::
          ((if tl = [] then [] else ' ' :: tl) ++ ')' :: X)))
      = some (_escape nm, tl, X) := by
  have e1 : dropLit litField ('(' :: 'f' :: 'i' :: 'e' :: 'l' :: 'd' :: ' '
      :: '(' :: 'n' :: 'a' :: 'm' :: 'e' :: ' ' :: '"' ::
        (_escape nm ++ '"' :: ')' ::
          ((if tl = [] then [] else ' ' :: tl) ++ ')' :: X)))
      = some (' ' :: '(' :: 'n' :: 'a' :: 'm' :: 'e' :: ' ' :: '"' ::
          (_escape nm ++ '"' :: ')' ::
            ((if tl = [] then [] else ' ' :: tl) ++ ')' :: X))) :=
    dropLit_append litField _
  have e2 : ws1 (' ' :: '(' :: 'n' :: 'a' :: 'm' :: 'e' :: ' ' :: '"' ::
      (_escape nm ++ '"' :: ')' ::
        ((if tl = [] then [] else ' ' :: tl) ++ ')' :: X)))
      = some ('(' :: 'n' :: 'a' :: 'm' :: 'e' :: ' ' :: '"' ::
          (_escape nm ++ '"' :: ')' ::
            ((if tl = [] then [] else ' ' :: tl) ++ ')' :: X))) := by
    simp [ws1, isWs, dropWs]
  have e3 : dropLit litName ('(' :: 'n' :: 'a' :: 'm' :: 'e' :: ' ' :: '"' ::
      (_escape nm ++ '"' :: ')' ::
        ((if tl = [] then [] else ' ' :: tl) ++ ')' :: X)))
      = some (' ' :: '"' :: (_escape nm ++ '"' :: ')' ::
          ((if tl = [] then [] else ' ' :: tl) ++ ')' :: X))) :=
    dropLit_append litName _
  have e4 : ws1 (' ' :: '"' :: (_escape nm ++ '"' :: ')' ::
      ((if tl = [] then [] else ' ' :: tl) ++ ')' :: X)))
      = some ('"' :: (_escape nm ++ '"' :: ')' ::
          ((if tl = [] then [] else ' ' :: tl) ++ ')' :: X))) := by
    simp [ws1, isWs, dropWs]
  have e5 : dropLit [ '"' ] ('"' :: (_escape nm ++ '"' :: ')' ::
      ((if tl = [] then [] else ' ' :: tl) ++ ')' :: X)))
      = some (_escape nm ++ '"' :: ')' ::
          ((if tl = [] then [] else ' ' :: tl) ++ ')' :: X)) := by
    simp [dropLit]
  have e6 : scanName (_escape nm ++ '"' :: ')' ::
      ((if tl = [] then [] else ' ' :: tl) ++ ')' :: X))
      = some (_escape nm, ')' ::
          ((if tl = [] then [] else ' ' :: tl) ++ ')' :: X)) :=
    scanName_escape nm _
  have e7 : dropLit [ ')' ] (')' ::
      ((if tl = [] then [] else ' ' :: tl) ++ ')' :: X))
      = some ((if tl = [] then [] else ' ' :: tl) ++ ')' :: X) := by
    simp [dropLit]
  have e8 : scanTail (dropWs
      ((if tl = [] then [] else ' ' :: tl) ++ ')' :: X))
      = some (tl, X) := by
    rw [hdw]
    exact scanTail_append tl X htl
  simp only [matchFieldAt, e1, e2, e3, e4, e5, e6, e7, e8]

theorem matchFieldAt_build (it : FieldItem) (X : List Char)
    (h : ')' ∉ strip it.suffix) :
    matchFieldAt (with_suffix_inside it ++ X)
      = some (_escape it.name, strip it.suffix, X) := by
  have hdecomp : with_suffix_inside it ++ X
      = '(' :: 'f' :: 'i' :: 'e' :: 'l' :: 'd' :: ' ' :: '(' :: 'n' :: 'a'
        :: 'm' :: 'e' :: ' ' :: '"' :: (_escape it.name ++ '"' :: ')' ::
          ((if strip it.suffix = [] then [] else ' ' :: strip it.suffix)
            ++ ')' :: X)) := by
    simp [with_suffix_inside, litField, litName, List.append_assoc]
  rw [hdecomp]
  apply matchFieldAt_parts it.name (strip it.suffix) X h
  by_cases he : strip it.suffix = []
  · rw [if_pos he, he]
    simp only [List.nil_append]
    exact dropWs_not_ws ')' X (by decide)
  · rw [if_neg he]
    have : dropWs (' ' :: (strip it.suffix ++ ')' :: X))
        = dropWs (strip it.suffix ++ ')' :: X) := by
      simp [dropWs, isWs]
    rw [List.cons_append, this]
    exact dropWs_strip_append it.suffix (')' :: X) he

theorem matchFieldAt_ne_lparen (c : Char) (t : List Char) (h : c ≠ '(') :
    matchFieldAt (c :: t) = none := by
  have hne : ¬(('(' : Char) = c) := fun hh => h hh.symm
  have e1 : dropLit litField (c :: t) = none := by
    simp [litField, dropLit, hne]
  simp [matchFieldAt, e1]

theorem matchFieldAt_lparen_t (t : List Char) :
    matchFieldAt ('(' :: 't' :: t) = none := by
  have e1 : dropLit litField ('(' :: 't' :: t) = none := by
    simp [litField, dropLit]
  simp [matchFieldAt, e1]

/-! ## Parser-level lemmas -/

theorem findAllF_congr (f1 : Nat) :
    ∀ (f2 : Nat) (s : List Char), s.length ≤ f1 → s.length ≤ f2 →
      findAllF f1 s = findAllF f2 s := by
  induction f1 with
  | zero =>
    intro f2 s h1 h2
    have hs : s = [] := List.eq_nil_of_length_eq_zero (Nat.le_zero.mp h1)
    subst hs
    cases f2 <;> simp [findAllF]
  | succ k ih =>
    intro f2 s h1 h2
    cases s with
    | nil => cases f2 <;> simp [findAllF]
    | cons c rest =>
      cases f2 with
      | zero =>
        simp only [List.length_cons] at h2
        omega
      | succ m =>
        simp only [findAllF]
        cases hm : matchFieldAt (c :: rest) with
        | none =>
          simp only [List.length_cons] at h1 h2
          show findAllF k rest = findAllF m rest
          exact ih m rest (by omega) (by omega)
        | some p =>
          obtain ⟨g1, g2, s2⟩ := p
          have hl := matchFieldAt_some_length (c :: rest) g1 g2 s2 hm
          simp only [List.length_cons] at h1 h2 hl
          show (⟨ _unescape g1, g2 ⟩ : FieldItem) :: findAllF k s2
            = ⟨ _unescape g1, g2 ⟩ :: findAllF m s2
          rw [ih m s2 (by omega) (by omega)]

theorem parse_cons_none (c : Char) (rest : List Char)
    (h : matchFieldAt (c :: rest) = none) :
    parse_field_names_sexpr (c :: rest) = parse_field_names_sexpr rest := by
  unfold parse_field_names_sexpr
  simp only [List.length_cons, findAllF, h]

theorem parse_match_some (s g1 g2 s2 : List Char)
    (h : matchFieldAt s = some (g1, g2, s2)) :
    parse_field_names_sexpr s
      = ⟨ _unescape g1, g2 ⟩ :: parse_field_names_sexpr s2 := by
  cases s with
  | nil => simp [matchFieldAt, dropLit, litField] at h
  | cons c rest =>
    have hl := matchFieldAt_some_length _ _ _ _ h
    unfold parse_field_names_sexpr
    simp only [List.length_cons, findAllF, h, List.cons.injEq, true_and]
    simp only [List.length_cons] at hl
    exact findAllF_congr rest.length s2.length s2 (by omega) (le_refl _)

theorem parse_nil : parse_field_names_sexpr [] = [] := rfl

theorem parse_append_tf (t : List Char) :
    parse_field_names_sexpr (litTF ++ t) = parse_field_names_sexpr t := by
  show parse_field_names_sexpr ('(' :: 't' :: 'e' :: 'm' :: 'p' :: 'l' :: 'a'
      :: 't' :: 'e' :: 'f' :: 'i' :: 'e' :: 'l' :: 'd' :: 's' :: t)
    = parse_field_names_sexpr t
  rw [parse_cons_none _ _ (matchFieldAt_lparen_t _),
    parse_cons_none _ _ (matchFieldAt_ne_lparen 't' _ (by decide)),
    parse_cons_none _ _ (matchFieldAt_ne_lparen 'e' _ (by decide)),
    parse_cons_none _ _ (matchFieldAt_ne_lparen 'm' _ (by decide)),
    parse_cons_none _ _ (matchFieldAt_ne_lparen 'p' _ (by decide)),
    parse_cons_none _ _ (matchFieldAt_ne_lparen 'l' _ (by decide)),
    parse_cons_none _ _ (matchFieldAt_ne_lparen 'a' _ (by decide)),
    parse_cons_none _ _ (matchFieldAt_ne_lparen 't' _ (by decide)),
    parse_cons_none _ _ (matchFieldAt_ne_lparen 'e' _ (by decide)),
    parse_cons_none _ _ (matchFieldAt_ne_lparen 'f' _ (by decide)),
    parse_cons_none _ _ (matchFieldAt_ne_lparen 'i' _ (by decide)),
    parse_cons_none _ _ (matchFieldAt_ne_lparen 'e' _ (by decide)),
    parse_cons_none _ _ (matchFieldAt_ne_lparen 'l' _ (by decide)),
    parse_cons_none _ _ (matchFieldAt_ne_lparen 'd' _ (by decide)),
    parse_cons_none _ _ (matchFieldAt_ne_lparen 's' _ (by decide))]

theorem parse_flatten (items : List FieldItem)
    (h : ∀ it ∈ items, ')' ∉ strip it.suffix) :
    parse_field_names_sexpr ((items.map with_suffix_inside).flatten ++ [ ')' ])
      = items.map (fun it => ⟨ it.name, strip it.suffix ⟩) := by
  induction items with
  | nil =>
    simp only [List.map_nil, List.flatten_nil, List.nil_append]
    rw [parse_cons_none ')' [] (matchFieldAt_ne_lparen ')' [] (by decide))]
    rfl
  | cons it rest ih =>
    simp only [List.map_cons, List.flatten_cons, List.append_assoc]
    rw [parse_match_some _ _ _ _
      (matchFieldAt_build it _ (h it (List.mem_cons_self it rest)))]
    rw [unescape_escape]
    rw [ih (fun x hx => h x (List.mem_cons_of_mem it hx))]

theorem parse_build (items : List FieldItem)
    (h : ∀ it ∈ items, ')' ∉ strip it.suffix) :
    parse_field_names_sexpr (build_field_names_sexpr items)
      = items.map (fun it => ⟨ it.name, strip it.suffix ⟩) := by
  unfold build_field_names_sexpr
  rw [List.append_assoc, parse_append_tf, parse_flatten items h]

theorem findAllF_tails (fuel : Nat) :
    ∀ (s : List Char) (it : FieldItem), it ∈ findAllF fuel s →
      ')' ∉ it.suffix := by
  induction fuel with
  | zero => intro s it h; simp [findAllF] at h
  | succ k ih =>
    intro s it h
    cases s with
    | nil => simp [findAllF] at h
    | cons c rest =>
      simp only [findAllF] at h
      cases hm : matchFieldAt (c :: rest) with
      | none =>
        rw [hm] at h
        exact ih rest it h
      | some p =>
        obtain ⟨g1, g2, s2⟩ := p
        rw [hm] at h
        rcases List.mem_cons.mp h with h2 | h2
        · rw [h2]
          exact matchFieldAt_tail_not_rparen (c :: rest) g1 g2 s2 hm
        · exact ih s2 it h2

theorem parse_tails (x : List Char) (it : FieldItem)
    (h : it ∈ parse_field_names_sexpr x) : ')' ∉ it.suffix :=
  findAllF_tails x.length x it h

/-! ## Reorder-by-names lemmas -/

theorem find?_append_none (p : FieldItem → Bool) (l1 l2 : List FieldItem)
    (h : l1.find? p = none) : (l1 ++ l2).find? p = l2.find? p := by
  induction l1 with
  | nil => rfl
  | cons a t ih =>
    cases hp : p a with
    | true =>
      rw [List.find?_cons_of_pos _ hp] at h
      exact absurd h (by simp)
    | false =>
      rw [List.find?_cons_of_neg _ (by simp [hp])] at h
      rw [List.cons_append, List.find?_cons_of_neg _ (by simp [hp])]
      exact ih h

theorem find?_append_some (p : FieldItem → Bool) (l1 l2 : List FieldItem)
    (x : FieldItem) (h : l1.find? p = some x) :
    (l1 ++ l2).find? p = some x := by
  induction l1 with
  | nil => simp [List.find?] at h
  | cons a t ih =>
    cases hp : p a with
    | true =>
      rw [List.find?_cons_of_pos _ hp] at h
      rw [List.cons_append, List.find?_cons_of_pos _ hp]
      exact h
    | false =>
      rw [List.find?_cons_of_neg _ (by simp [hp])] at h
      rw [List.cons_append, List.find?_cons_of_neg _ (by simp [hp])]
      exact ih h

theorem goImport_fst (items : List FieldItem) (ns : List (List Char)) :
    ∀ seen,
      (goImport items ns seen).1
        = (dedupFrom seen ns).map (fun n => ⟨ n, suffixGet items n ⟩) := by
  induction ns with
  | nil => intro seen; simp [goImport, dedupFrom]
  | cons n ns ih =>
    intro seen
    by_cases h : n ∈ seen
    · simp [goImport, dedupFrom, h, ih]
    · simp [goImport, dedupFrom, h, ih]

theorem goImport_snd (items : List FieldItem) (ns : List (List Char)) :
    ∀ seen m, (m ∈ (goImport items ns seen).2 ↔ m ∈ seen ∨ m ∈ ns) := by
  induction ns with
  | nil => intro seen m; simp [goImport]
  | cons n ns ih =>
    intro seen m
    by_cases h : n ∈ seen
    · have e : (goImport items (n :: ns) seen).2
          = (goImport items ns seen).2 := by
        simp [goImport, h]
      rw [e, ih seen m]
      simp only [List.mem_cons]
      have hmn : m = n → m ∈ seen := fun hm => hm ▸ h
      tauto
    · have e : (goImport items (n :: ns) seen).2
          = (goImport items ns (seen ++ [n])).2 := by
        simp [goImport, h]
      rw [e, ih (seen ++ [n]) m]
      simp only [List.mem_append, List.mem_singleton, List.mem_cons]
      tauto

theorem dedupFrom_mem (ns : List (List Char)) :
    ∀ seen m, m ∈ dedupFrom seen ns ↔ m ∉ seen ∧ m ∈ ns := by
  induction ns with
  | nil => intro seen m; simp [dedupFrom]
  | cons n ns ih =>
    intro seen m
    by_cases h : n ∈ seen
    · have e : dedupFrom seen (n :: ns) = dedupFrom seen ns := by
        simp [dedupFrom, h]
      rw [e, ih seen m]
      simp only [List.mem_cons]
      have hmn : m = n → m ∈ seen := fun hm => hm ▸ h
      tauto
    · have e : dedupFrom seen (n :: ns) = n :: dedupFrom (seen ++ [n]) ns := by
        simp [dedupFrom, h]
      rw [e]
      simp only [List.mem_cons, ih (seen ++ [n]) m, List.mem_append,
        List.mem_singleton]
      by_cases hmn : m = n
      · subst hmn
        tauto
      · tauto

theorem find?_name_cons_pos (it : FieldItem) (rest : List FieldItem)
    (n : List Char) (hp : (it.name == n) = true) :
    (it :: rest).find? (fun x => x.name == n) = some it :=
  List.find?_cons_of_pos rest
    (show (fun (x : FieldItem) => x.name == n) it = true from hp)

theorem find?_name_cons_neg (it : FieldItem) (rest : List FieldItem)
    (n : List Char) (hp : ¬(it.name == n) = true) :
    (it :: rest).find? (fun x => x.name == n)
      = rest.find? (fun x => x.name == n) :=
  List.find?_cons_of_neg rest
    (show ¬(fun (x : FieldItem) => x.name == n) it = true from hp)

theorem suffixGet_eq_tailOf (items : List FieldItem)
    (h : (items.map FieldItem.name).Nodup) (n : List Char) :
    suffixGet items n = tailOf items n := by
  induction items with
  | nil => rfl
  | cons it rest ih =>
    simp only [List.map_cons, List.nodup_cons] at h
    obtain ⟨hname, hrest⟩ := h
    by_cases hp : (it.name == n) = true
    · have heq : it.name = n := eq_of_beq hp
      have hnone : rest.reverse.find? (fun x => x.name == n) = none := by
        apply List.find?_eq_none.mpr
        intro x hx hpx
        have hxn : x.name = n := eq_of_beq hpx
        have hx' : x.name ∈ rest.map FieldItem.name :=
          List.mem_map_of_mem FieldItem.name (List.mem_reverse.mp hx)
        rw [hxn, ← heq] at hx'
        exact hname hx'
      have e1 : (it :: rest).reverse.find? (fun x => x.name == n)
          = some it := by
        rw [List.reverse_cons, find?_append_none _ _ _ hnone,
          find?_name_cons_pos it [] n hp]
      have e2 : (it :: rest).find? (fun x => x.name == n) = some it :=
        find?_name_cons_pos it rest n hp
      unfold suffixGet tailOf
      rw [e1, e2]
    · have e1 : (it :: rest).reverse.find? (fun x => x.name == n)
          = rest.reverse.find? (fun x => x.name == n) := by
        rw [List.reverse_cons]
        cases hf : rest.reverse.find? (fun x => x.name == n) with
        | none =>
          rw [find?_append_none _ _ _ hf, find?_name_cons_neg it [] n hp]
          rfl
        | some x => exact find?_append_some _ _ _ x hf
      have e2 : (it :: rest).find? (fun x => x.name == n)
          = rest.find? (fun x => x.name == n) :=
        find?_name_cons_neg it rest n hp
      calc suffixGet (it :: rest) n
          = suffixGet rest n := by
            unfold suffixGet
            rw [e1]
        _ = tailOf rest n := ih hrest
        _ = tailOf (it :: rest) n := by
            unfold tailOf
            rw [e2]

theorem on_import_eq_spec (names : List (List Char)) (items : List FieldItem)
    (h : (items.map FieldItem.name).Nodup) :
    on_import names items = reorder_spec names items := by
  simp only [on_import, reorder_spec]
  rw [goImport_fst items names []]
  congr 1
  · exact List.map_congr_left
      (fun n _ => by rw [suffixGet_eq_tailOf items h n])
  · apply List.filter_congr
    intro it hit
    have e : (goImport items names []).2.contains it.name
        = (dedupFrom [] names).contains it.name := by
      by_cases hm : it.name ∈ names
      · have a1 : (goImport items names []).2.contains it.name = true :=
          List.elem_iff.mpr ((goImport_snd items names [] it.name).mpr
            (Or.inr hm))
        have a2 : (dedupFrom [] names).contains it.name = true :=
          List.elem_iff.mpr ((dedupFrom_mem names [] it.name).mpr
            ⟨by simp, hm⟩)
        rw [a1, a2]
      · have a1 : (goImport items names []).2.contains it.name = false := by
          rw [← Bool.not_eq_true]
          intro hc
          rcases (goImport_snd items names [] it.name).mp
            (List.elem_iff.mp hc) with h2 | h2
          · simp at h2
          · exact hm h2
        have a2 : (dedupFrom [] names).contains it.name = false := by
          rw [← Bool.not_eq_true]
          intro hc
          exact hm ((dedupFrom_mem names [] it.name).mp
            (List.elem_iff.mp hc)).2
        rw [a1, a2]
    rw [e]

/-! ## Move and add lemmas -/

theorem pyGet_nat (items : List FieldItem) (k : Nat) (hk : k < items.length) :
    pyGet items (k : Int) = items.get? k := by
  unfold pyGet pyIdx
  rw [if_pos ⟨Int.ofNat_nonneg k, by exact_mod_cast hk⟩]
  simp

theorem pySet_nat (items : List FieldItem) (k : Nat) (v : FieldItem)
    (hk : k < items.length) : pySet items (k : Int) v = some (items.set k v) := by
  unfold pySet pyIdx
  rw [if_pos ⟨Int.ofNat_nonneg k, by exact_mod_cast hk⟩]
  simp

theorem move_up_swap (k : Nat) (items : List FieldItem) (h1 : 1 ≤ k)
    (h2 : k < items.length) :
    _move_up (k : Int) items = some (swapAdj items (k - 1)) := by
  obtain ⟨a, ha⟩ : ∃ a, items.get? k = some a :=
    ⟨_, List.get?_eq_get h2⟩
  obtain ⟨b, hb⟩ : ∃ b, items.get? (k - 1) = some b :=
    ⟨_, List.get?_eq_get (by omega)⟩
  have hcast : (k : Int) - 1 = ((k - 1 : Nat) : Int) := by omega
  have g1 : pyGet items (k : Int) = some a := by
    rw [pyGet_nat items k h2, ha]
  have g2 : pyGet items ((k : Int) - 1) = some b := by
    rw [hcast, pyGet_nat items (k - 1) (by omega), hb]
  have g3 : pySet items ((k : Int) - 1) a = some (items.set (k - 1) a) := by
    rw [hcast, pySet_nat items (k - 1) a (by omega)]
  have g4 : pySet (items.set (k - 1) a) (k : Int) b
      = some ((items.set (k - 1) a).set k b) :=
    pySet_nat _ k b (by rw [List.length_set]; omega)
  have e5 : swapAdj items (k - 1) = (items.set (k - 1) a).set k b := by
    unfold swapAdj
    have hk1 : k - 1 + 1 = k := by omega
    rw [hk1, hb, ha]
  unfold _move_up
  rw [if_neg (by omega)]
  simp [g1, g2, g3, g4, e5]

theorem move_down_swap (k : Nat) (items : List FieldItem)
    (h2 : k + 1 < items.length) :
    _move_down (k : Int) items = some (swapAdj items k) := by
  obtain ⟨a, ha⟩ : ∃ a, items.get? k = some a :=
    ⟨_, List.get?_eq_get (by omega)⟩
  obtain ⟨b, hb⟩ : ∃ b, items.get? (k + 1) = some b :=
    ⟨_, List.get?_eq_get h2⟩
  have hcast : (k : Int) + 1 = ((k + 1 : Nat) : Int) := by omega
  have g1 : pyGet items (k : Int) = some a := by
    rw [pyGet_nat items k (by omega), ha]
  have g2 : pyGet items ((k : Int) + 1) = some b := by
    rw [hcast, pyGet_nat items (k + 1) h2, hb]
  have g3 : pySet items ((k : Int) + 1) a = some (items.set (k + 1) a) := by
    rw [hcast, pySet_nat items (k + 1) a h2]
  have g4 : pySet (items.set (k + 1) a) (k : Int) b
      = some ((items.set (k + 1) a).set k b) :=
    pySet_nat _ k b (by rw [List.length_set]; omega)
  have e5 : swapAdj items k = (items.set (k + 1) a).set k b := by
    unfold swapAdj
    rw [ha, hb]
    exact List.set_comm b a items (by omega)
  have hguard : ¬((k : Int) = -1 ∨ (items.length : Int) - 1 ≤ (k : Int)) := by
    omega
  unfold _move_down
  rw [if_neg hguard]
  simp [g1, g2, g3, g4, e5]

theorem on_add_characterization (raw : List Char) (items : List FieldItem) :
    on_add raw items
      = if strip raw ≠ [] ∧ ∀ it ∈ items, it.name ≠ strip raw
        then items ++ [⟨ strip raw, [] ⟩] else items := by
  simp only [on_add]
  by_cases h : strip raw ≠ [] ∧ ∀ it ∈ items, it.name ≠ strip raw
  · rw [if_pos h, if_pos]
    refine ⟨h.1, ?_⟩
    rw [List.all_eq_true]
    intro it hit
    exact bne_iff_ne.mpr (h.2 it hit)
  · rw [if_neg h, if_neg]
    intro hc
    apply h
    refine ⟨hc.1, ?_⟩
    intro it hit
    exact bne_iff_ne.mp (List.all_eq_true.mp hc.2 it hit)

/-! ## Further shared lemmas for the claims -/

theorem wsi_eq_record_text (it : FieldItem) :
    with_suffix_inside it = record_text_spec it := by
  simp only [with_suffix_inside, record_text_spec]
  by_cases h : strip it.suffix = []
  · rw [if_pos h, if_neg (fun hc => hc h)]
  · rw [if_neg h, if_pos h]

theorem parse_no_match (x : List Char)
    (h : ∀ i ≤ x.length, matchFieldAt (x.drop i) = none) :
    parse_field_names_sexpr x = [] := by
  induction x with
  | nil => rfl
  | cons c rest ih =>
    have h0 := h 0 (by omega)
    rw [List.drop_zero] at h0
    rw [parse_cons_none c rest h0]
    apply ih
    intro i hi
    have hs := h (i + 1) (by simp only [List.length_cons]; omega)
    rw [List.drop_succ_cons] at hs
    exact hs

/-! ## The claims -/

/-- C1 (corrected as stated): the original claim quantifies over every
Sequence; a tail containing a closing parenthesis refutes it, because the
serialized tail then ends the record early at that parenthesis.  Here the
sequence `[⟨"A", ")"⟩]` serializes to `(templatefields(field (name "A") )))`
whose re-parse has tail `""`, not `")"`. -/
theorem C1_roundtrip_cex :
    (parse_field_names_sexpr (build_field_names_sexpr
        [⟨ "A".toList, ")".toList ⟩])).map
        (fun it => (it.name, strip it.suffix))
      ≠ [(⟨ "A".toList, ")".toList ⟩ : FieldItem)].map
          (fun it => (it.name, strip it.suffix)) := by
  decide

/-- C1 (amended): for every Sequence none of whose tails contains `')'`,
parsing the serialization yields a sequence of the same length whose
(name, trimmed tail) pairs equal, in order, those of the input. -/
theorem C1_roundtrip_pairs (items : List FieldItem)
    (h : ∀ it ∈ items, ')' ∉ it.suffix) :
    (parse_field_names_sexpr (build_field_names_sexpr items)).map
        (fun it => (it.name, strip it.suffix))
      = items.map (fun it => (it.name, strip it.suffix))
    ∧ (parse_field_names_sexpr (build_field_names_sexpr items)).length
      = items.length := by
  have h' : ∀ it ∈ items, ')' ∉ strip it.suffix :=
    fun it hit hc => h it hit (strip_mem ')' it.suffix hc)
  rw [parse_build items h']
  constructor
  · rw [List.map_map]
    apply List.map_congr_left
    intro it hit
    simp [Function.comp, strip_idem]
  · simp

/-- Witness for C1 at the one-record sequence `[⟨"A", " v "⟩]`. -/
theorem C1_roundtrip_witness :
    (parse_field_names_sexpr (build_field_names_sexpr
        [⟨ [ 'A' ], [ ' ', 'v', ' ' ] ⟩])).map
        (fun it => (it.name, strip it.suffix))
      = [(⟨ [ 'A' ], [ ' ', 'v', ' ' ] ⟩ : FieldItem)].map
          (fun it => (it.name, strip it.suffix))
    ∧ (parse_field_names_sexpr (build_field_names_sexpr
        [⟨ [ 'A' ], [ ' ', 'v', ' ' ] ⟩])).length
      = [(⟨ [ 'A' ], [ ' ', 'v', ' ' ] ⟩ : FieldItem)].length :=
  C1_roundtrip_pairs [⟨ [ 'A' ], [ ' ', 'v', ' ' ] ⟩] (by decide)

/-- C2 (corrected as stated): re-parsing the serialization of a parse is not
field-for-field identical, because serialization strips the tail; a parsed
tail with trailing whitespace ("v " here) comes back trimmed ("v"). -/
theorem C2_roundtrip_cex :
    parse_field_names_sexpr (build_field_names_sexpr
        (parse_field_names_sexpr ( "(field (name \"A\") v )".toList)))
      ≠ parse_field_names_sexpr ( "(field (name \"A\") v )".toList) := by
  decide

/-- C2 (amended): for every input text, `parse (serialize (parse x))` has
the same number of records as `parse x` with identical names in each
position, and tails that agree after trimming (the re-parsed tail is the
trimmed original tail). -/
theorem C2_roundtrip_parse (x : List Char) :
    (parse_field_names_sexpr (build_field_names_sexpr
        (parse_field_names_sexpr x))).map FieldItem.name
      = (parse_field_names_sexpr x).map FieldItem.name
    ∧ (parse_field_names_sexpr (build_field_names_sexpr
        (parse_field_names_sexpr x))).map (fun it => strip it.suffix)
      = (parse_field_names_sexpr x).map (fun it => strip it.suffix)
    ∧ (parse_field_names_sexpr (build_field_names_sexpr
        (parse_field_names_sexpr x))).length
      = (parse_field_names_sexpr x).length := by
  have h' : ∀ it ∈ parse_field_names_sexpr x, ')' ∉ strip it.suffix :=
    fun it hit hc => parse_tails x it hit (strip_mem ')' it.suffix hc)
  rw [parse_build _ h']
  refine ⟨?_, ?_, ?_⟩
  · rw [List.map_map]
    rfl
  · rw [List.map_map]
    apply List.map_congr_left
    intro it hit
    simp [Function.comp, strip_idem]
  · simp

/-- C3 (confirmed): unescaping after escaping is the identity on every name,
for every combination of quotes and backslashes. -/
theorem C3_escape_roundtrip (name : List Char) :
    _unescape (_escape name) = name :=
  unescape_escape name

/-- C4 (confirmed): the import path (`reorderByNames`) equals the spec-side
description — one record per distinct imported name in list order, each
keeping its existing tail (or empty when absent), followed by the remaining
current records in original order, later duplicates ignored.  Stated under
the spec's standing expectation that record names are unique. -/
theorem C4_reorder_by_names (names : List (List Char))
    (items : List FieldItem) (h : (items.map FieldItem.name).Nodup) :
    on_import names items = reorder_spec names items :=
  on_import_eq_spec names items h

/-- Witness for C4: `reorderByNames ["C"]` on `[A, B]`. -/
theorem C4_reorder_witness :
    on_import [ [ 'C' ] ] [⟨ [ 'A' ], [] ⟩, ⟨ [ 'B' ], [] ⟩]
      = reorder_spec [ [ 'C' ] ] [⟨ [ 'A' ], [] ⟩, ⟨ [ 'B' ], [] ⟩] :=
  C4_reorder_by_names [ [ 'C' ] ] [⟨ [ 'A' ], [] ⟩, ⟨ [ 'B' ], [] ⟩]
    (by decide)

/-- C5 (confirmed): the serializer emits, per record, the record delimiter
and escaped double-quoted name, then exactly one space and the stripped tail
only when that is non-empty, then the closing delimiter; the records are
concatenated with no separator between `(templatefields` and `)`. -/
theorem C5_serializer_format (items : List FieldItem) :
    build_field_names_sexpr items = serialize_spec items
    ∧ ∀ it : FieldItem, with_suffix_inside it = record_text_spec it := by
  constructor
  · unfold build_field_names_sexpr serialize_spec
    have hmap : items.map with_suffix_inside = items.map record_text_spec :=
      List.map_congr_left (fun it _ => wsi_eq_record_text it)
    rw [hmap]
  · exact wsi_eq_record_text

/-- C6 (corrected as stated): the claim says the example's tails are
`" visible"` and `" url"` with the leading space; in fact `\s*` in
`FIELD_RE` sits outside capture group 2, so the leading whitespace is
consumed and the captured tails are `"visible"` and `"url"`. -/
theorem C6_raw_tail_cex :
    (parse_field_names_sexpr ( "(templatefields (field (name \"MFR\") visible) (field (name \"URL\") url))".toList)).map
        (fun it => it.suffix)
      ≠ [ " visible".toList, " url".toList ] := by
  decide

/-- C6 (amended): parse captures each tail raw except that the pattern
consumes the whitespace between the name and the tail; the example yields
tails `"visible"` and `"url"`, and trailing whitespace inside a tail is kept
verbatim (second conjunct), untrimmed and untokenized. -/
theorem C6_raw_tail :
    parse_field_names_sexpr ( "(templatefields (field (name \"MFR\") visible) (field (name \"URL\") url))".toList)
      = [⟨ "MFR".toList, "visible".toList ⟩, ⟨ "URL".toList, "url".toList ⟩]
    ∧ parse_field_names_sexpr ( "(field (name \"A\") v )".toList)
      = [⟨ "A".toList, "v ".toList ⟩] := by
  decide

/-- C7 (corrected as stated): `on_add` strips the entered name first, so for
the non-empty name `" "` (absent from the empty sequence) nothing is
appended, refuting the claimed `if and only if`. -/
theorem C7_insert_cex :
    ([ ' ' ] : List Char) ≠ [] ∧ on_add [ ' ' ] [] = [] := by
  decide

/-- C7 (amended): `insert(raw)` appends exactly one record named
`strip raw` with empty tail when `strip raw` is non-empty and no record
carries that name, and otherwise leaves the sequence unchanged. -/
theorem C7_insert (raw : List Char) (items : List FieldItem) :
    on_add raw items
      = if strip raw ≠ [] ∧ ∀ it ∈ items, it.name ≠ strip raw
        then items ++ [⟨ strip raw, [] ⟩] else items :=
  on_add_characterization raw items

/-- C8 (corrected as stated): for the out-of-range index `-2` the move does
not leave the sequence unchanged — Python's negative indexing lets the
swap address elements from the end. -/
theorem C8_move_cex :
    _move_up (-2) [⟨ [ 'a' ], [] ⟩, ⟨ [ 'b' ], [] ⟩, ⟨ [ 'c' ], [] ⟩]
        = some [⟨ [ 'b' ], [] ⟩, ⟨ [ 'a' ], [] ⟩, ⟨ [ 'c' ], [] ⟩]
    ∧ _move_up (-2) [⟨ [ 'a' ], [] ⟩, ⟨ [ 'b' ], [] ⟩, ⟨ [ 'c' ], [] ⟩]
        ≠ some [⟨ [ 'a' ], [] ⟩, ⟨ [ 'b' ], [] ⟩, ⟨ [ 'c' ], [] ⟩] := by
  decide

/-- C8 (amended): for the selection values the list control can produce
(`-1`, i.e. `wx.NOT_FOUND`, or a valid index) the claim holds: a move swaps
the selected record with its neighbour and is a no-op at `-1`, at index 0
for up, and at the last index for down. -/
theorem C8_move (items : List FieldItem) (i : Int) (h1 : -1 ≤ i)
    (h2 : i < (items.length : Int)) :
    _move_up i items
        = some (if i = -1 ∨ i = 0 then items
            else swapAdj items (i.toNat - 1))
    ∧ _move_down i items
        = some (if i = -1 ∨ (items.length : Int) - 1 ≤ i then items
            else swapAdj items i.toNat) := by
  constructor
  · by_cases h : i = -1 ∨ i = 0
    · rw [if_pos h]
      unfold _move_up
      rw [if_pos h]
    · rw [if_neg h]
      have hfun : _move_up i items
          = _move_up ((i.toNat : Nat) : Int) items := by
        rw [Int.toNat_of_nonneg (by omega : 0 ≤ i)]
      rw [hfun, move_up_swap i.toNat items (by omega) (by omega)]
  · by_cases h : i = -1 ∨ (items.length : Int) - 1 ≤ i
    · rw [if_pos h]
      unfold _move_down
      rw [if_pos h]
    · rw [if_neg h]
      have hfun : _move_down i items
          = _move_down ((i.toNat : Nat) : Int) items := by
        rw [Int.toNat_of_nonneg (by omega : 0 ≤ i)]
      rw [hfun, move_down_swap i.toNat items (by omega)]

/-- Witness for C8 at selection 1 of a two-record sequence. -/
theorem C8_move_witness :
    _move_up 1 [⟨ [ 'a' ], [] ⟩, ⟨ [ 'b' ], [] ⟩]
        = some (if (1 : Int) = -1 ∨ (1 : Int) = 0
            then [⟨ [ 'a' ], [] ⟩, ⟨ [ 'b' ], [] ⟩]
            else swapAdj [⟨ [ 'a' ], [] ⟩, ⟨ [ 'b' ], [] ⟩]
              ((1 : Int).toNat - 1))
    ∧ _move_down 1 [⟨ [ 'a' ], [] ⟩, ⟨ [ 'b' ], [] ⟩]
        = some (if (1 : Int) = -1
              ∨ (([⟨ [ 'a' ], [] ⟩, ⟨ [ 'b' ], [] ⟩] : List FieldItem).length
                  : Int) - 1 ≤ 1
            then [⟨ [ 'a' ], [] ⟩, ⟨ [ 'b' ], [] ⟩]
            else swapAdj [⟨ [ 'a' ], [] ⟩, ⟨ [ 'b' ], [] ⟩]
              (1 : Int).toNat) :=
  C8_move [⟨ [ 'a' ], [] ⟩, ⟨ [ 'b' ], [] ⟩] 1 (by decide) (by decide)

/-- C9 (confirmed): the parser is a total function of its input (it cannot
raise — it is defined by structural recursion over the text), the empty
input parses to the empty list, and any text in which no position starts a
well-formed record pattern parses to the empty list. -/
theorem C9_parse_never_fails :
    parse_field_names_sexpr [] = []
    ∧ ∀ x : List Char,
        (∀ i ≤ x.length, matchFieldAt (x.drop i) = none) →
        parse_field_names_sexpr x = [] :=
  ⟨rfl, parse_no_match⟩

/-- Witness for C9 on a text with no record pattern. -/
theorem C9_parse_witness : parse_field_names_sexpr ( "garbage".toList) = [] :=
  C9_parse_never_fails.2 ( "garbage".toList) (by decide)

/-- C10 (confirmed): every record produced by the parser has a tail free of
`')'` — the tail capture of `FIELD_RE` matches only non-`')'` characters.
(Caller-constructed records are not so constrained, which is why the
serializer round-trip needs this invariant as a hypothesis.) -/
theorem C10_tail_invariant (x : List Char) (it : FieldItem)
    (h : it ∈ parse_field_names_sexpr x) : ')' ∉ it.suffix :=
  parse_tails x it h

/-- Witness for C10 on a concrete parsed record. -/
theorem C10_tail_witness :
    ')' ∉ (FieldItem.mk ( "MFR".toList) ( "visible".toList)).suffix :=
  C10_tail_invariant
    ( "(templatefields (field (name \"MFR\") visible))".toList)
    ⟨ "MFR".toList, "visible".toList ⟩ (by decide)

end KiFields
